import Mathlib

/-!
Verification of `flood_fill.py`.

The Python program computes the size of the connected region of "safe"
cells around the origin of an implicit infinite grid, where a cell
`(x, y)` is a mine iff the decimal digit sums of `|x|` and `|y|` add up
to more than a threshold (23).  The region is represented by maximal
horizontal runs of safe cells ("clumps", the `Line` named tuple).

This file is a shallow embedding of the source:

* `get_int_digits`, `check_mine_at_position` — the mine oracle,
  including the digit-extraction loop of `_get_int_digits` (the float
  `floor(log10 ...)` of the source is embedded as the exact integer
  base-10 logarithm `log10F`);
* `x_adjust_left` / `x_adjust_right` — `_x_adjust` at its two call
  sites (`step = -1` / `step = 1`); the unbounded `itertools.count`
  walk is embedded with `Nat.find`, which is well defined because a
  mine always exists in either horizontal direction; the `assert` of
  the source is modelled by returning `none`;
* `normalize_line`, `slice_line`, `find_safe_clumps_within_line`,
  `find_safe_clumps` — the normalizer and scanner (the NumPy masked
  array `clump_unmasked` call is embedded as a linear scan grouping
  consecutive safe offsets, which is what it computes);
* `DriverStep` / `DriverReaches` — the worklist loop of `main`, with
  the `next(iter(...))` arbitrary choice modelled as nondeterminism.
-/

/-- Threshold used to decide whether a position holds a mine. -/
def THRESHOLD : Nat := 23

/-- Horizontal line: the half-open run `[x, x + width)` on row `y`
(the `Line` named tuple of the source). -/
@[ext]
structure Line where
  x : Int
  y : Int
  width : Int
deriving DecidableEq

/-- Exact base-10 logarithm, fuel-driven: `log10_aux fuel n` is
`floor (log10 n)` whenever `1 ≤ n ≤ fuel`.  This embeds the
`floor(log10(remainder))` of `_get_int_digits`. -/
def log10_aux : Nat → Nat → Nat
  | 0, _ => 0
  | fuel+1, n => if n < 10 then 0 else log10_aux fuel (n / 10) + 1

/-- Exact `floor (log10 n)` for `n ≥ 1`. -/
def log10F (n : Nat) : Nat := log10_aux n n

/-- The `divmod` loop of `_get_int_digits`: digits of `r`,
most-significant first, assuming `r < 10 ^ (ix + 1)`. -/
def digitsAux : Nat → Nat → List Nat
  | r, 0 => [r]
  | r, ix+1 => (r / 10 ^ (ix+1)) :: digitsAux (r % 10 ^ (ix+1)) ix

/-- Embedding of `_get_int_digits`: the decimal digits of `|value|`,
most-significant first; `[0]` for zero. -/
def get_int_digits (value : Int) : List Nat :=
  let remainder := value.natAbs
  if remainder = 0 then [0]
  else digitsAux remainder (log10F remainder)

/-- Embedding of `_check_mine_at_position`: `True` iff the digits of
`x` and `y` sum to more than `THRESHOLD`. -/
def check_mine_at_position (x y : Int) : Bool :=
  decide (THRESHOLD < (get_int_digits x ++ get_int_digits y).sum)

/-- Specification-side digit sum: the sum of the decimal digits
(`digitsum` in the spec's words). -/
def digitsum (n : Nat) : Nat := (Nat.digits 10 n).sum

lemma digitsum_zero : digitsum 0 = 0 := by simp [digitsum]

lemma digitsum_eq (n : Nat) : digitsum n = n % 10 + digitsum (n / 10) := by
  rcases Nat.eq_zero_or_pos n with h | h
  · subst h; simp [digitsum]
  · unfold digitsum
    rw [Nat.digits_def' (by norm_num : (1:Nat) < 10) h]
    simp [List.sum_cons]

lemma digitsum_of_lt_ten (n : Nat) (h : n < 10) : digitsum n = n := by
  rw [digitsum_eq, Nat.mod_eq_of_lt h, Nat.div_eq_of_lt h, digitsum_zero]
  omega

/-- Digit sums add across a carry-free decomposition `a * 10 ^ m + b`
with `b < 10 ^ m`. -/
lemma digitsum_mul_pow_add (m : Nat) : ∀ a b : Nat, b < 10 ^ m →
    digitsum (a * 10 ^ m + b) = digitsum a + digitsum b := by
  induction m with
  | zero =>
      intro a b hb
      interval_cases b
      simp [digitsum_zero]
  | succ m ih =>
      intro a b hb
      have h10 : (0:Nat) < 10 := by norm_num
      have hmod : (a * 10 ^ (m+1) + b) % 10 = b % 10 := by
        have : a * 10 ^ (m+1) = (a * 10 ^ m) * 10 := by ring
        rw [this, Nat.add_comm, Nat.add_mul_mod_self_right]
      have hdiv : (a * 10 ^ (m+1) + b) / 10 = a * 10 ^ m + b / 10 := by
        have : a * 10 ^ (m+1) = (a * 10 ^ m) * 10 := by ring
        rw [this, Nat.add_comm, Nat.add_mul_div_right _ _ h10, Nat.add_comm]
      have hb' : b / 10 < 10 ^ m := by
        have : b < 10 * 10 ^ m := by
          calc b < 10 ^ (m+1) := hb
          _ = 10 * 10 ^ m := by ring
        exact Nat.div_lt_of_lt_mul this
      calc digitsum (a * 10 ^ (m+1) + b)
          = (a * 10 ^ (m+1) + b) % 10 + digitsum ((a * 10 ^ (m+1) + b) / 10) :=
            digitsum_eq _
        _ = b % 10 + digitsum (a * 10 ^ m + b / 10) := by rw [hmod, hdiv]
        _ = b % 10 + (digitsum a + digitsum (b / 10)) := by rw [ih a (b / 10) hb']
        _ = digitsum a + (b % 10 + digitsum (b / 10)) := by ring
        _ = digitsum a + digitsum b := by rw [← digitsum_eq]

lemma log10_aux_bounds : ∀ fuel n : Nat, 1 ≤ n → n ≤ fuel →
    10 ^ (log10_aux fuel n) ≤ n ∧ n < 10 ^ (log10_aux fuel n + 1) := by
  intro fuel
  induction fuel with
  | zero => intro n h1 h2; omega
  | succ fuel ih =>
      intro n h1 h2
      by_cases h : n < 10
      · simp only [log10_aux, if_pos h]
        constructor
        · simpa using h1
        · simpa using h
      · simp only [log10_aux, if_neg h]
        push_neg at h
        have hpos : 1 ≤ n / 10 := Nat.one_le_div_iff (by norm_num) |>.mpr h
        have hle : n / 10 ≤ fuel := by
          have := Nat.div_lt_self (by omega : 0 < n) (by norm_num : 1 < 10)
          omega
        obtain ⟨hl, hr⟩ := ih (n / 10) hpos hle
        constructor
        · calc 10 ^ (log10_aux fuel (n / 10) + 1)
              = 10 ^ (log10_aux fuel (n / 10)) * 10 := by ring
          _ ≤ (n / 10) * 10 := by exact Nat.mul_le_mul_right 10 hl
          _ ≤ n := Nat.div_mul_le_self n 10
        · have h1' : n < (n / 10 + 1) * 10 := by omega
          calc n < (n / 10 + 1) * 10 := h1'
          _ ≤ (10 ^ (log10_aux fuel (n / 10) + 1)) * 10 := by
                exact Nat.mul_le_mul_right 10 (by omega)
          _ = 10 ^ (log10_aux fuel (n / 10) + 1 + 1) := by ring

lemma digitsAux_sum : ∀ k r : Nat, r < 10 ^ (k+1) →
    (digitsAux r k).sum = digitsum r := by
  intro k
  induction k with
  | zero =>
      intro r hr
      simp only [digitsAux, List.sum_cons, List.sum_nil]
      rw [digitsum_of_lt_ten r (by simpa using hr)]
      omega
  | succ k ih =>
      intro r hr
      have hd : r / 10 ^ (k+1) < 10 := by
        apply Nat.div_lt_of_lt_mul
        calc r < 10 ^ (k+2) := hr
        _ = 10 ^ (k+1) * 10 := by ring
      have hm : r % 10 ^ (k+1) < 10 ^ (k+1) :=
        Nat.mod_lt _ (pow_pos (by norm_num : (0:Nat) < 10) (k+1))
      simp only [digitsAux, List.sum_cons]
      rw [ih _ hm]
      calc r / 10 ^ (k+1) + digitsum (r % 10 ^ (k+1))
          = digitsum (r / 10 ^ (k+1)) + digitsum (r % 10 ^ (k+1)) := by
            rw [digitsum_of_lt_ten _ hd]
        _ = digitsum ((r / 10 ^ (k+1)) * 10 ^ (k+1) + r % 10 ^ (k+1)) :=
            (digitsum_mul_pow_add (k+1) _ _ hm).symm
        _ = digitsum r := by rw [Nat.mul_comm, Nat.div_add_mod]

/-- The digit list produced by the embedded `_get_int_digits` loop sums
to the mathematical digit sum of `|value|`. -/
lemma get_int_digits_sum (value : Int) :
    (get_int_digits value).sum = digitsum value.natAbs := by
  unfold get_int_digits
  by_cases h : value.natAbs = 0
  · simp [h, digitsum_zero]
  · simp only [h, if_neg, ite_false]
    have h1 : 1 ≤ value.natAbs := Nat.one_le_iff_ne_zero.mpr h
    have := log10_aux_bounds value.natAbs value.natAbs h1 le_rfl
    exact digitsAux_sum (log10F value.natAbs) value.natAbs this.2

/-- Characterization of the mine oracle by digit sums. -/
lemma check_mine_iff (x y : Int) :
    check_mine_at_position x y = true ↔
      THRESHOLD < digitsum x.natAbs + digitsum y.natAbs := by
  unfold check_mine_at_position
  rw [decide_eq_true_iff, List.sum_append, get_int_digits_sum, get_int_digits_sum]

lemma digitsum_pow_sub_one (k : Nat) : digitsum (10 ^ k - 1) = 9 * k := by
  induction k with
  | zero => simp [digitsum_zero]
  | succ k ih =>
      have hpos : 1 ≤ 10 ^ k := Nat.one_le_pow k 10 (by norm_num)
      have hsplit : 10 ^ (k+1) - 1 = 10 * (10 ^ k - 1) + 9 := by
        have : 10 ^ (k+1) = 10 * 10 ^ k := by ring
        omega
      rw [hsplit, digitsum_eq]
      have hmod : (10 * (10 ^ k - 1) + 9) % 10 = 9 := by omega
      have hdiv : (10 * (10 ^ k - 1) + 9) / 10 = 10 ^ k - 1 := by omega
      rw [hmod, hdiv, ih]
      ring

/-- A mine always exists somewhere to the right: the walk of
`_x_adjust` with `step = 1` terminates. -/
lemma exists_mine_right (x y : Int) :
    ∃ n : Nat, check_mine_at_position (x + (n:Int) + 1) y = true := by
  classical
  set k := x.natAbs + 3 with hk
  set N : Nat := 10 ^ k - 1 with hN
  have hkp : k < 10 ^ k := Nat.lt_pow_self (by norm_num) k
  have hN2 : x.natAbs + 1 ≤ N := by
    have h2 : x.natAbs + 3 < 10 ^ k := hkp
    omega
  have hNx : (x:Int) + 1 ≤ (N:Int) := by
    have h1 : x ≤ (x.natAbs : Int) := Int.le_natAbs
    have h3 : ((x.natAbs + 1 : Nat) : Int) ≤ (N : Int) := by exact_mod_cast hN2
    push_cast at h3
    omega
  refine ⟨(N - x - 1).toNat, ?_⟩
  have hcoe : ((N:Int) - x - 1).toNat = ((N:Int) - x - 1) := by
    rw [Int.toNat_of_nonneg]
    omega
  have harg : x + (((N:Int) - x - 1).toNat : Int) + 1 = (N:Int) := by
    omega
  rw [show ((N - x - 1).toNat : Int) = (((N:Int) - x - 1).toNat : Int) by norm_num]
  rw [harg, check_mine_iff]
  have : digitsum ((N:Int)).natAbs = 9 * k := by
    rw [Int.natAbs_ofNat]
    exact digitsum_pow_sub_one k
  rw [this]
  have : 27 ≤ 9 * k := by omega
  unfold THRESHOLD
  omega

/-- A mine always exists somewhere to the left: the walk of
`_x_adjust` with `step = -1` terminates. -/
lemma exists_mine_left (x y : Int) :
    ∃ n : Nat, check_mine_at_position (x - (n:Int) - 1) y = true := by
  classical
  set k := x.natAbs + 3 with hk
  set N : Nat := 10 ^ k - 1 with hN
  have hkp : k < 10 ^ k := Nat.lt_pow_self (by norm_num) k
  have hN2 : x.natAbs + 1 ≤ N := by
    have h2 : x.natAbs + 3 < 10 ^ k := hkp
    omega
  have hNx : 1 - x ≤ (N:Int) := by
    have h1 : -x ≤ (x.natAbs : Int) := by omega
    have h3 : ((x.natAbs + 1 : Nat) : Int) ≤ (N : Int) := by exact_mod_cast hN2
    push_cast at h3
    omega
  refine ⟨(x + N - 1).toNat, ?_⟩
  have harg : x - (((x + (N:Int) - 1).toNat : Int)) - 1 = -(N:Int) := by
    rw [Int.toNat_of_nonneg (by omega)]
    ring
  rw [show (((x + N - 1).toNat : Int)) = (((x + (N:Int) - 1).toNat : Int)) by norm_num]
  rw [harg, check_mine_iff]
  have : digitsum ((-(N:Int))).natAbs = 9 * k := by
    simp only [Int.natAbs_neg, Int.natAbs_ofNat]
    exact digitsum_pow_sub_one k
  rw [this]
  unfold THRESHOLD
  omega

/-- Embedding of `_x_adjust` at the call site with `step = -1`: walk
left from `x` to the first position whose left neighbour is a mine.
The source's `assert` (the supplied position must not contain a mine)
is modelled by `none`. -/
def x_adjust_left (x y : Int) : Option Int :=
  if check_mine_at_position x y = true then none
  else some (x - (Nat.find (exists_mine_left x y) : Int))

/-- Embedding of `_x_adjust` at the call site with `step = 1`: walk
right from `x` to the first position whose right neighbour is a mine. -/
def x_adjust_right (x y : Int) : Option Int :=
  if check_mine_at_position x y = true then none
  else some (x + (Nat.find (exists_mine_right x y) : Int))

/-- Embedding of `_normalize_line`: extend each end of the line that is
not already a mine to the nearest clump boundary. -/
def normalize_line (line : Line) : Option Line :=
  let x1 := line.x
  let x2 := line.x + line.width
  let y := line.y
  let ox1 := if check_mine_at_position x1 y = true then some x1 else x_adjust_left x1 y
  let ox2 := if check_mine_at_position x2 y = true then some x2 else
    (x_adjust_right x2 y).map (fun t => t + 1)
  match ox1, ox2 with
  | some a, some b => some { x := a, y := y, width := b - a }
  | _, _ => none

/-- Total version of normalization (the assertion never fires, see
`normalize_line_isSome`). -/
def normalize_total (l : Line) : Line := (normalize_line l).getD l

lemma normalize_line_isSome (l : Line) : (normalize_line l).isSome = true := by
  unfold normalize_line x_adjust_left x_adjust_right
  by_cases h1 : check_mine_at_position l.x l.y = true <;>
    by_cases h2 : check_mine_at_position (l.x + l.width) l.y = true <;>
      simp [h1, h2]

lemma normalize_line_eq_total (l : Line) :
    normalize_line l = some (normalize_total l) := by
  have := normalize_line_isSome l
  unfold normalize_total
  cases h : normalize_line l with
  | none => rw [h] at this; simp at this
  | some nl => simp [h]

/-- Componentwise description of `normalize_total`. -/
lemma normalize_total_def (l : Line) :
    (normalize_total l).x = (if check_mine_at_position l.x l.y = true then l.x
      else l.x - (Nat.find (exists_mine_left l.x l.y) : Int)) ∧
    (normalize_total l).y = l.y ∧
    (normalize_total l).x + (normalize_total l).width =
      (if check_mine_at_position (l.x + l.width) l.y = true then l.x + l.width
      else l.x + l.width + (Nat.find (exists_mine_right (l.x + l.width) l.y) : Int) + 1) := by
  unfold normalize_total normalize_line x_adjust_left x_adjust_right
  by_cases h1 : check_mine_at_position l.x l.y = true <;>
    by_cases h2 : check_mine_at_position (l.x + l.width) l.y = true <;>
      simp [h1, h2]

lemma find_left_mine (x y : Int) :
    check_mine_at_position (x - (Nat.find (exists_mine_left x y) : Int) - 1) y = true :=
  Nat.find_spec (exists_mine_left x y)

lemma find_right_mine (x y : Int) :
    check_mine_at_position (x + (Nat.find (exists_mine_right x y) : Int) + 1) y = true :=
  Nat.find_spec (exists_mine_right x y)

/-- Every position passed over by the leftward walk is safe. -/
lemma find_left_safe (x y : Int) (hx : check_mine_at_position x y = false) :
    ∀ t : Int, x - (Nat.find (exists_mine_left x y) : Int) ≤ t → t ≤ x →
      check_mine_at_position t y = false := by
  intro t h1 h2
  rcases eq_or_lt_of_le h2 with rfl | hlt
  · exact hx
  · set F := Nat.find (exists_mine_left x y) with hF
    have hk : (x - t - 1).toNat < F := by omega
    have := Nat.find_min (exists_mine_left x y) hk
    have harg : x - (((x - t - 1).toNat : Int)) - 1 = t := by omega
    rw [harg] at this
    exact Bool.eq_false_iff.mpr this

/-- Every position passed over by the rightward walk is safe. -/
lemma find_right_safe (x y : Int) (hx : check_mine_at_position x y = false) :
    ∀ t : Int, x ≤ t → t ≤ x + (Nat.find (exists_mine_right x y) : Int) →
      check_mine_at_position t y = false := by
  intro t h1 h2
  rcases eq_or_lt_of_le h1 with rfl | hlt
  · exact hx
  · set F := Nat.find (exists_mine_right x y) with hF
    have hk : (t - x - 1).toNat < F := by omega
    have := Nat.find_min (exists_mine_right x y) hk
    have harg : x + (((t - x - 1).toNat : Int)) + 1 = t := by omega
    rw [harg] at this
    exact Bool.eq_false_iff.mpr this

/-- Evaluation rule for the leftward walk at a known stopping point. -/
lemma x_adjust_left_eq (x y : Int) (k : Nat)
    (hx : check_mine_at_position x y = false)
    (hm : check_mine_at_position (x - (k:Int) - 1) y = true)
    (hs : ∀ j : Nat, j < k → check_mine_at_position (x - (j:Int) - 1) y = false) :
    x_adjust_left x y = some (x - (k:Int)) := by
  unfold x_adjust_left
  rw [if_neg (by simp [hx])]
  have : Nat.find (exists_mine_left x y) = k := by
    rw [Nat.find_eq_iff]
    exact ⟨hm, fun j hj => by rw [hs j hj]; simp⟩
  rw [this]

/-- Evaluation rule for the rightward walk at a known stopping point. -/
lemma x_adjust_right_eq (x y : Int) (k : Nat)
    (hx : check_mine_at_position x y = false)
    (hm : check_mine_at_position (x + (k:Int) + 1) y = true)
    (hs : ∀ j : Nat, j < k → check_mine_at_position (x + (j:Int) + 1) y = false) :
    x_adjust_right x y = some (x + (k:Int)) := by
  unfold x_adjust_right
  rw [if_neg (by simp [hx])]
  have : Nat.find (exists_mine_right x y) = k := by
    rw [Nat.find_eq_iff]
    exact ⟨hm, fun j hj => by rw [hs j hj]; simp⟩
  rw [this]

lemma normalize_y (l : Line) : (normalize_total l).y = l.y :=
  (normalize_total_def l).2.1

lemma normalize_x_le (l : Line) : (normalize_total l).x ≤ l.x := by
  have h := (normalize_total_def l).1
  by_cases hc : check_mine_at_position l.x l.y = true <;> simp [hc] at h <;> omega

lemma normalize_end_ge (l : Line) :
    l.x + l.width ≤ (normalize_total l).x + (normalize_total l).width := by
  have h := (normalize_total_def l).2.2
  by_cases hc : check_mine_at_position (l.x + l.width) l.y = true <;>
    simp [hc] at h <;> omega

/-- The right edge of a normalized line is always a mine. -/
lemma normalize_right_mine (l : Line) :
    check_mine_at_position ((normalize_total l).x + (normalize_total l).width) l.y = true := by
  have h := (normalize_total_def l).2.2
  by_cases hc : check_mine_at_position (l.x + l.width) l.y = true
  · simp [hc] at h; rw [h]; exact hc
  · simp [hc] at h
    rw [h]
    exact find_right_mine (l.x + l.width) l.y

/-- The left edge of a normalized line is a mine, or is safe with a
mine immediately to its left. -/
lemma normalize_left_mine (l : Line) :
    check_mine_at_position (normalize_total l).x l.y = true ∨
      (check_mine_at_position (normalize_total l).x l.y = false ∧
        check_mine_at_position ((normalize_total l).x - 1) l.y = true) := by
  have h := (normalize_total_def l).1
  by_cases hc : check_mine_at_position l.x l.y = true
  · simp [hc] at h; rw [h]; exact Or.inl hc
  · simp [hc] at h
    right
    have hc' : check_mine_at_position l.x l.y = false := Bool.eq_false_iff.mpr hc
    constructor
    · rw [h]
      exact find_left_safe l.x l.y hc' _ le_rfl (by omega)
    · rw [h]
      exact find_left_mine l.x l.y

lemma normalize_left_safe (l : Line) (h : check_mine_at_position l.x l.y = false) :
    ∀ t : Int, (normalize_total l).x ≤ t → t ≤ l.x →
      check_mine_at_position t l.y = false := by
  have hdef := (normalize_total_def l).1
  rw [if_neg (by simp [h])] at hdef
  intro t h1 h2
  exact find_left_safe l.x l.y h t (by omega) h2

lemma normalize_right_safe (l : Line)
    (h : check_mine_at_position (l.x + l.width) l.y = false) :
    ∀ t : Int, l.x + l.width ≤ t → t < (normalize_total l).x + (normalize_total l).width →
      check_mine_at_position t l.y = false := by
  have hdef := (normalize_total_def l).2.2
  rw [if_neg (by simp [h])] at hdef
  intro t h1 h2
  exact find_right_safe (l.x + l.width) l.y h t h1 (by omega)

/-- Lines whose ends are already clump boundaries are fixed by
normalization. -/
lemma normalize_fix (l : Line)
    (hL : check_mine_at_position l.x l.y = true ∨
      check_mine_at_position (l.x - 1) l.y = true)
    (hR : check_mine_at_position (l.x + l.width) l.y = true) :
    normalize_total l = l := by
  obtain ⟨h1, h2, h3⟩ := normalize_total_def l
  rw [if_pos hR] at h3
  have hx : (normalize_total l).x = l.x := by
    by_cases hc : check_mine_at_position l.x l.y = true
    · rw [if_pos hc] at h1; exact h1
    · rw [if_neg hc] at h1
      have hfz : Nat.find (exists_mine_left l.x l.y) = 0 := by
        rw [Nat.find_eq_zero]
        rcases hL with hA | hB
        · exact absurd hA hc
        · show check_mine_at_position (l.x - (0:Nat) - 1) l.y = true
          simpa using hB
      rw [hfz] at h1
      simpa using h1
  exact Line.ext hx h2 (by omega)

/-- Normalization is a projection: its output is a fixed point. -/
lemma normalize_output_fix (l : Line) :
    normalize_total (normalize_total l) = normalize_total l := by
  apply normalize_fix
  · rcases normalize_left_mine l with h | ⟨h1, h2⟩
    · rw [normalize_y]; exact Or.inl h
    · rw [normalize_y]; exact Or.inr h2
  · rw [normalize_y]; exact normalize_right_mine l

/-- Embedding of `_slice_line`: carve `[x1_offset, x2_offset)` out of a
line, offsets relative to `line.x`. -/
def slice_line (line : Line) (x1_offset x2_offset : Nat) : Line :=
  { x := line.x + (x1_offset : Int)
    y := line.y
    width := (x2_offset : Int) - (x1_offset : Int) }

/-- Offset `i` of `l` holds a safe cell (the unmasked entries of the
NumPy masked array in `_find_safe_clumps_within_line`). -/
def safe_at (l : Line) (i : Nat) : Bool :=
  !(check_mine_at_position (l.x + (i : Int)) l.y)

/-- Length of the run of consecutive `p`-true offsets starting at `j`,
looking at most `fuel` offsets ahead. -/
def count_run (p : Nat → Bool) : Nat → Nat → Nat
  | 0, _ => 0
  | fuel+1, j => if p j = true then count_run p fuel (j+1) + 1 else 0

/-- Offset `a` opens a maximal safe run. -/
def run_start (l : Line) (a : Nat) : Bool :=
  safe_at l a && (decide (a = 0) || !safe_at l (a - 1))

/-- Embedding of `_find_safe_clumps_within_line`: the maximal
contiguous safe sub-runs of the span, in ascending order (what
`np.ma.clump_unmasked` returns on the masked offset array). -/
def find_safe_clumps_within_line (l : Line) : List Line :=
  (List.range l.width.toNat).filterMap (fun a =>
    if run_start l a = true then
      some (slice_line l a (a + count_run (safe_at l) (l.width.toNat - a) a))
    else none)

lemma count_run_le (p : Nat → Bool) : ∀ fuel j, count_run p fuel j ≤ fuel := by
  intro fuel
  induction fuel with
  | zero => intro j; simp [count_run]
  | succ fuel ih =>
      intro j
      unfold count_run
      by_cases h : p j = true
      · rw [if_pos h]; have := ih (j+1); omega
      · rw [if_neg h]; omega

lemma count_run_safe (p : Nat → Bool) : ∀ fuel j i, i < count_run p fuel j →
    p (j + i) = true := by
  intro fuel
  induction fuel with
  | zero => intro j i h; simp [count_run] at h
  | succ fuel ih =>
      intro j i h
      unfold count_run at h
      by_cases hp : p j = true
      · rw [if_pos hp] at h
        cases i with
        | zero => simpa using hp
        | succ i =>
            have := ih (j+1) i (by omega)
            have harg : j + 1 + i = j + (i + 1) := by omega
            rwa [harg] at this
      · rw [if_neg hp] at h; omega

lemma count_run_stop (p : Nat → Bool) : ∀ fuel j,
    count_run p fuel j < fuel → p (j + count_run p fuel j) = false := by
  intro fuel
  induction fuel with
  | zero => intro j h; omega
  | succ fuel ih =>
      intro j h
      unfold count_run at h ⊢
      by_cases hp : p j = true
      · rw [if_pos hp] at h ⊢
        have := ih (j+1) (by omega)
        have harg : j + 1 + count_run p fuel (j+1) = j + (count_run p fuel (j+1) + 1) := by
          omega
        rwa [harg] at this
      · rw [if_neg hp]
        simpa using Bool.eq_false_iff.mpr hp

lemma count_run_ge (p : Nat → Bool) : ∀ fuel j m, (∀ i, i < m → p (j + i) = true) →
    m ≤ fuel → m ≤ count_run p fuel j := by
  intro fuel
  induction fuel with
  | zero => intro j m h hm; omega
  | succ fuel ih =>
      intro j m h hm
      cases m with
      | zero => omega
      | succ m =>
          have hp : p j = true := by simpa using h 0 (by omega)
          unfold count_run
          rw [if_pos hp]
          have : m ≤ count_run p fuel (j+1) := by
            apply ih (j+1) m _ (by omega)
            intro i hi
            have := h (i+1) (by omega)
            have harg : j + (i + 1) = j + 1 + i := by omega
            rwa [harg] at this
          omega

/-- Membership characterization for the scanner: the returned lines are
exactly the slices of the maximal safe offset-runs of the span. -/
lemma mem_scanner_iff (l : Line) (c : Line) :
    c ∈ find_safe_clumps_within_line l ↔
      ∃ a b : Nat, a < b ∧ b ≤ l.width.toNat ∧
        c = slice_line l a b ∧
        (∀ i : Nat, a ≤ i → i < b → safe_at l i = true) ∧
        (a = 0 ∨ safe_at l (a-1) = false) ∧
        (b = l.width.toNat ∨ safe_at l b = false) := by
  set n := l.width.toNat with hn
  unfold find_safe_clumps_within_line
  rw [List.mem_filterMap]
  constructor
  · rintro ⟨a, ha, hsome⟩
    rw [List.mem_range] at ha
    by_cases hrs : run_start l a = true
    · rw [if_pos hrs] at hsome
      set cnt := count_run (safe_at l) (n - a) a with hcnt
      have hc : c = slice_line l a (a + cnt) := by
        injection hsome with h
        exact h.symm
      unfold run_start at hrs
      rw [Bool.and_eq_true] at hrs
      obtain ⟨hsa, hstart⟩ := hrs
      have hcnt1 : 1 ≤ cnt := by
        apply count_run_ge
        · intro i hi
          have : i = 0 := by omega
          subst this
          simpa using hsa
        · omega
      refine ⟨a, a + cnt, by omega, ?_, hc, ?_, ?_, ?_⟩
      · have := count_run_le (safe_at l) (n - a) a
        omega
      · intro i h1 h2
        have := count_run_safe (safe_at l) (n - a) a (i - a) (by omega)
        have harg : a + (i - a) = i := by omega
        rwa [harg] at this
      · rw [Bool.or_eq_true] at hstart
        rcases hstart with h | h
        · left; simpa using h
        · right; simpa using h
      · by_cases hfull : cnt = n - a
        · left; omega
        · right
          have hlt : cnt < n - a := by
            have := count_run_le (safe_at l) (n - a) a
            omega
          exact count_run_stop (safe_at l) (n - a) a hlt
    · rw [if_neg hrs] at hsome
      exact absurd hsome (by simp)
  · rintro ⟨a, b, hab, hbn, hc, hsafe, hleft, hright⟩
    refine ⟨a, ?_, ?_⟩
    · rw [List.mem_range]; omega
    · have hrs : run_start l a = true := by
        unfold run_start
        rw [Bool.and_eq_true, Bool.or_eq_true]
        refine ⟨hsafe a le_rfl hab, ?_⟩
        rcases hleft with h | h
        · left; simpa using h
        · right; simpa using h
      rw [if_pos hrs]
      have hcnt : count_run (safe_at l) (n - a) a = b - a := by
        have hge : b - a ≤ count_run (safe_at l) (n - a) a := by
          apply count_run_ge
          · intro i hi
            exact hsafe (a + i) (by omega) (by omega)
          · omega
        have hle : count_run (safe_at l) (n - a) a ≤ b - a := by
          by_contra hcon
          push_neg at hcon
          have hbsafe : safe_at l b = true := by
            have := count_run_safe (safe_at l) (n - a) a (b - a) hcon
            have harg : a + (b - a) = b := by omega
            rwa [harg] at this
          rcases hright with h | h
          · have := count_run_le (safe_at l) (n - a) a
            omega
          · rw [h] at hbsafe; exact absurd hbsafe (by simp)
        omega
      rw [hcnt, hc]
      have harg : a + (b - a) = b := by omega
      rw [harg]

/-- Position-level properties of every line returned by the scanner. -/
lemma scanner_mem_props (l c : Line) (hc : c ∈ find_safe_clumps_within_line l) :
    c.y = l.y ∧ 0 < c.width ∧ l.x ≤ c.x ∧
      c.x + c.width ≤ l.x + (l.width.toNat : Int) ∧
      (∀ t : Int, c.x ≤ t → t < c.x + c.width →
        check_mine_at_position t l.y = false) ∧
      (c.x = l.x ∨ check_mine_at_position (c.x - 1) l.y = true) ∧
      (c.x + c.width = l.x + (l.width.toNat : Int) ∨
        check_mine_at_position (c.x + c.width) l.y = true) := by
  rw [mem_scanner_iff] at hc
  obtain ⟨a, b, hab, hbn, hceq, hsafe, hleft, hright⟩ := hc
  subst hceq
  unfold slice_line
  simp only
  refine ⟨trivial, by omega, by omega, ?_, ?_, ?_, ?_⟩
  · have : (b : Int) ≤ (l.width.toNat : Int) := by exact_mod_cast hbn
    omega
  · intro t h1 h2
    have hi : (t - l.x).toNat < b ∧ a ≤ (t - l.x).toNat := by omega
    have := hsafe (t - l.x).toNat hi.2 hi.1
    unfold safe_at at this
    rw [Bool.not_eq_true'] at this
    have harg : l.x + (((t - l.x).toNat : Int)) = t := by omega
    rwa [harg] at this
  · rcases hleft with h | h
    · left; rw [h]; simp
    · right
      unfold safe_at at h
      rw [Bool.not_eq_false'] at h
      have harg : l.x + (((a - 1 : Nat)) : Int) = l.x + (a : Int) - 1 := by
        have : 1 ≤ a := by
          by_contra hcon
          push_neg at hcon
          have ha0 : a = 0 := by omega
          subst ha0
          have hsafe0 := hsafe 0 le_rfl hab
          unfold safe_at at hsafe0
          rw [Bool.not_eq_true'] at hsafe0
          simp at h hsafe0
          rw [hsafe0] at h
          exact absurd h (by simp)
        push_cast [this]
        omega
      rwa [harg] at h
  · rcases hright with h | h
    · left
      subst h
      ring
    · right
      unfold safe_at at h
      rw [Bool.not_eq_false'] at h
      have harg : l.x + ((b : Nat) : Int) = l.x + (a : Int) + ((b : Int) - (a : Int)) := by
        omega
      rwa [harg] at h

lemma exists_run_left (P : Nat → Bool) (i : Nat) (hi : P i = true) :
    ∃ a, a ≤ i ∧ (∀ j, a ≤ j → j ≤ i → P j = true) ∧
      (a = 0 ∨ P (a-1) = false) := by
  induction i with
  | zero =>
      refine ⟨0, le_rfl, ?_, Or.inl rfl⟩
      intro j h1 h2
      have : j = 0 := by omega
      subst this
      exact hi
  | succ i ih =>
      cases hP : P i with
      | false =>
          refine ⟨i+1, le_rfl, ?_, Or.inr (by simpa using hP)⟩
          intro j h1 h2
          have : j = i + 1 := by omega
          subst this
          exact hi
      | true =>
          obtain ⟨a, h1, h2, h3⟩ := ih hP
          refine ⟨a, by omega, ?_, h3⟩
          intro j hj1 hj2
          by_cases hji : j ≤ i
          · exact h2 j hj1 hji
          · have : j = i + 1 := by omega
            subst this
            exact hi

lemma exists_run_right (P : Nat → Bool) (n : Nat) :
    ∀ m i, P i = true → i < n → n - i = m →
      ∃ b, i < b ∧ b ≤ n ∧ (∀ j, i ≤ j → j < b → P j = true) ∧
        (b = n ∨ P b = false) := by
  intro m
  induction m using Nat.strong_induction_on with
  | _ m ih =>
      intro i hi hin hm
      by_cases h1 : i + 1 = n
      · refine ⟨i+1, by omega, by omega, ?_, Or.inl h1⟩
        intro j hj1 hj2
        have : j = i := by omega
        subst this
        exact hi
      · cases hP : P (i+1) with
        | false =>
            refine ⟨i+1, by omega, by omega, ?_, Or.inr hP⟩
            intro j hj1 hj2
            have : j = i := by omega
            subst this
            exact hi
        | true =>
            obtain ⟨b, hb1, hb2, hb3, hb4⟩ :=
              ih (n - (i+1)) (by omega) (i+1) hP (by omega) rfl
            refine ⟨b, by omega, hb2, ?_, hb4⟩
            intro j hj1 hj2
            by_cases hji : i + 1 ≤ j
            · exact hb3 j hji hj2
            · have : j = i := by omega
              subst this
              exact hi

/-- Scanner completeness: every safe cell of the span lies in one of
the returned lines. -/
lemma scanner_complete (l : Line) (t : Int)
    (h1 : l.x ≤ t) (h2 : t < l.x + (l.width.toNat : Int))
    (h3 : check_mine_at_position t l.y = false) :
    ∃ c ∈ find_safe_clumps_within_line l, c.x ≤ t ∧ t < c.x + c.width := by
  set n := l.width.toNat with hn
  set i := (t - l.x).toNat with hi
  have hin : i < n := by omega
  have hP : safe_at l i = true := by
    unfold safe_at
    have harg : l.x + (i : Int) = t := by omega
    rw [harg, h3]
    rfl
  obtain ⟨a, ha1, ha2, ha3⟩ := exists_run_left (safe_at l) i hP
  obtain ⟨b, hb1, hb2, hb3, hb4⟩ :=
    exists_run_right (safe_at l) n (n - i) i hP hin rfl
  refine ⟨slice_line l a b, ?_, ?_, ?_⟩
  · rw [mem_scanner_iff]
    refine ⟨a, b, by omega, hb2, rfl, ?_, ha3, hb4⟩
    intro j hj1 hj2
    by_cases hji : j ≤ i
    · exact ha2 j hj1 hji
    · exact hb3 j (by omega) hj2
  · unfold slice_line
    simp only
    omega
  · unfold slice_line
    simp only
    have : (i : Int) < (b : Int) := by exact_mod_cast hb1
    omega

/-- Stopping-point uniqueness for the leftward walk. -/
lemma find_left_eq (x y v : Int) (hx : check_mine_at_position x y = false)
    (hv : v ≤ x) (hm : check_mine_at_position (v - 1) y = true)
    (hs : ∀ t : Int, v ≤ t → t < x → check_mine_at_position t y = false) :
    x - (Nat.find (exists_mine_left x y) : Int) = v := by
  have hfind : Nat.find (exists_mine_left x y) = (x - v).toNat := by
    rw [Nat.find_eq_iff]
    constructor
    · have harg : x - (((x - v).toNat : Int)) - 1 = v - 1 := by omega
      rw [harg]
      exact hm
    · intro j hj
      have harg : x - (j : Int) - 1 = x - j - 1 := rfl
      have ht : v ≤ x - (j : Int) - 1 ∧ x - (j : Int) - 1 < x := by omega
      rw [hs (x - (j : Int) - 1) ht.1 ht.2]
      simp
  rw [hfind]
  omega

/-- Stopping-point uniqueness for the rightward walk. -/
lemma find_right_eq (x y w : Int) (hx : check_mine_at_position x y = false)
    (hw : x < w) (hm : check_mine_at_position w y = true)
    (hs : ∀ t : Int, x ≤ t → t < w → check_mine_at_position t y = false) :
    x + (Nat.find (exists_mine_right x y) : Int) + 1 = w := by
  have hfind : Nat.find (exists_mine_right x y) = (w - x - 1).toNat := by
    rw [Nat.find_eq_iff]
    constructor
    · have harg : x + (((w - x - 1).toNat : Int)) + 1 = w := by omega
      rw [harg]
      exact hm
    · intro j hj
      have ht : x ≤ x + (j : Int) + 1 ∧ x + (j : Int) + 1 < w := by omega
      rw [hs (x + (j : Int) + 1) ht.1 ht.2]
      simp
  rw [hfind]
  omega

/-- A maximal safe run: non-degenerate, every cell safe, and a mine
immediately beyond each end.  Every clump the driver handles has this
shape. -/
def is_max_run (c : Line) : Prop :=
  0 < c.width ∧
    (∀ t : Int, c.x ≤ t → t < c.x + c.width →
      check_mine_at_position t c.y = false) ∧
    check_mine_at_position (c.x - 1) c.y = true ∧
    check_mine_at_position (c.x + c.width) c.y = true

/-- Two maximal runs on the same row sharing a cell are equal. -/
lemma max_run_eq (c d : Line) (hc : is_max_run c) (hd : is_max_run d)
    (hy : c.y = d.y) (t : Int)
    (htc1 : c.x ≤ t) (htc2 : t < c.x + c.width)
    (htd1 : d.x ≤ t) (htd2 : t < d.x + d.width) : c = d := by
  obtain ⟨hcw, hcsafe, hcl, hcr⟩ := hc
  obtain ⟨hdw, hdsafe, hdl, hdr⟩ := hd
  have hx : c.x = d.x := by
    rcases lt_trichotomy c.x d.x with h | h | h
    · exfalso
      have hsafe := hcsafe (d.x - 1) (by omega) (by omega)
      rw [hy] at hsafe
      rw [hdl] at hsafe
      exact absurd hsafe (by simp)
    · exact h
    · exfalso
      have hsafe := hdsafe (c.x - 1) (by omega) (by omega)
      rw [← hy] at hsafe
      rw [hcl] at hsafe
      exact absurd hsafe (by simp)
  have hwidth : c.width = d.width := by
    rcases lt_trichotomy (c.x + c.width) (d.x + d.width) with h | h | h
    · exfalso
      have hsafe := hdsafe (c.x + c.width) (by omega) (by omega)
      rw [← hy] at hsafe
      rw [hcr] at hsafe
      exact absurd hsafe (by simp)
    · omega
    · exfalso
      have hsafe := hcsafe (d.x + d.width) (by omega) (by omega)
      rw [hy] at hsafe
      rw [hdr] at hsafe
      exact absurd hsafe (by simp)
  exact Line.ext hx hy hwidth

/-- Maximal runs are fixed by normalization. -/
lemma max_run_normalize_fix (c : Line) (h : is_max_run c) :
    normalize_total c = c :=
  normalize_fix c (Or.inr h.2.2.1) h.2.2.2

/-- Normalizing any non-degenerate safe sub-run of a maximal run
recovers the whole run. -/
lemma normalize_subrun (e s : Line) (he : is_max_run e) (hy : s.y = e.y)
    (h1 : e.x ≤ s.x) (h2 : s.x + s.width ≤ e.x + e.width) (h3 : 0 < s.width) :
    normalize_total s = e := by
  obtain ⟨hew, hesafe, hel, her⟩ := he
  have hsx : check_mine_at_position s.x s.y = false := by
    rw [hy]
    exact hesafe s.x h1 (by omega)
  obtain ⟨hd1, hd2, hd3⟩ := normalize_total_def s
  rw [if_neg (by simp [hsx])] at hd1
  have hx : (normalize_total s).x = e.x := by
    rw [hd1, hy]
    apply find_left_eq s.x e.y e.x (by rw [← hy]; exact hsx) h1 hel
    intro t ht1 ht2
    exact hesafe t ht1 (by omega)
  have hend : (normalize_total s).x + (normalize_total s).width = e.x + e.width := by
    by_cases hc2 : check_mine_at_position (s.x + s.width) s.y = true
    · rw [if_pos hc2] at hd3
      rw [hd3]
      have : ¬ (s.x + s.width < e.x + e.width) := by
        intro hcon
        have := hesafe (s.x + s.width) (by omega) hcon
        rw [← hy] at this
        rw [hc2] at this
        exact absurd this (by simp)
      omega
    · rw [if_neg hc2] at hd3
      rw [hd3, hy]
      have hlt : s.x + s.width < e.x + e.width := by
        rcases eq_or_lt_of_le h2 with heq | hlt
        · exfalso
          apply hc2
          rw [heq, hy]
          exact her
        · exact hlt
      apply find_right_eq (s.x + s.width) e.y (e.x + e.width) ?_ hlt her
      · intro t ht1 ht2
        exact hesafe t (by omega) ht2
      · have := Bool.eq_false_iff.mpr hc2
        rw [hy] at this
        exact this
  have hyy : (normalize_total s).y = e.y := by rw [normalize_y]; exact hy
  apply Line.ext hx hyy
  omega

/-- Every line the scanner extracts from a normalized line is a maximal
run. -/
lemma scanner_of_normalized_max_run (l : Line) (hl : 0 ≤ l.width) (c : Line)
    (hc : c ∈ find_safe_clumps_within_line (normalize_total l)) :
    is_max_run c := by
  obtain ⟨hy, hw, hxl, hxr, hsafe, hleft, hright⟩ :=
    scanner_mem_props (normalize_total l) c hc
  have h1 := normalize_x_le l
  have h2 := normalize_end_ge l
  have hnlw : 0 ≤ (normalize_total l).width := by omega
  have hspan : (((normalize_total l).width.toNat : Int)) = (normalize_total l).width := by
    omega
  have hnly : (normalize_total l).y = l.y := normalize_y l
  rw [hspan] at hxr hright
  rw [hnly] at hy hsafe hleft hright
  refine ⟨hw, ?_, ?_, ?_⟩
  · intro t ht1 ht2
    rw [hy]
    exact hsafe t ht1 ht2
  · rw [hy]
    rcases hleft with h | h
    · rcases normalize_left_mine l with hm | ⟨hs1, hm⟩
      · exfalso
        have hcx := hsafe c.x le_rfl (by omega)
        rw [h, hm] at hcx
        exact absurd hcx (by simp)
      · rw [h]
        exact hm
    · exact h
  · rw [hy]
    rcases hright with h | h
    · rw [h]
      exact normalize_right_mine l
    · exact h

/-- Normalizing a non-empty all-safe span (endpoints included) yields a
maximal run. -/
lemma normalize_safe_max_run (l : Line) (hw : 0 ≤ l.width)
    (hsafe : ∀ t : Int, l.x ≤ t → t ≤ l.x + l.width →
      check_mine_at_position t l.y = false) :
    is_max_run (normalize_total l) := by
  have hs1 : check_mine_at_position l.x l.y = false := hsafe l.x le_rfl (by omega)
  have hs2 : check_mine_at_position (l.x + l.width) l.y = false :=
    hsafe (l.x + l.width) (by omega) le_rfl
  obtain ⟨hd1, hd2, hd3⟩ := normalize_total_def l
  rw [if_neg (by simp [hs1])] at hd1
  rw [if_neg (by simp [hs2])] at hd3
  have hxle : (normalize_total l).x ≤ l.x := normalize_x_le l
  have hendgt : l.x + l.width < (normalize_total l).x + (normalize_total l).width := by
    rw [hd3]
    have : (0:Int) ≤ (Nat.find (exists_mine_right (l.x + l.width) l.y) : Int) := by
      positivity
    omega
  have hmiddle : ∀ t : Int, (normalize_total l).x ≤ t →
      t < (normalize_total l).x + (normalize_total l).width →
      check_mine_at_position t l.y = false := by
    intro t ht1 ht2
    by_cases hA : t ≤ l.x
    · exact normalize_left_safe l hs1 t ht1 hA
    · by_cases hB : t ≤ l.x + l.width
      · exact hsafe t (by omega) hB
      · exact normalize_right_safe l hs2 t (by omega) ht2
  refine ⟨by omega, ?_, ?_, ?_⟩
  · intro t ht1 ht2
    rw [hd2]
    exact hmiddle t ht1 ht2
  · rw [hd2]
    rcases normalize_left_mine l with hm | ⟨hsx, hm⟩
    · exfalso
      have := hmiddle (normalize_total l).x le_rfl (by omega)
      rw [hm] at this
      exact absurd this (by simp)
    · exact hm
  · rw [hd2]
    exact normalize_right_mine l

/-- The seed clump: `normalize(Line(0, 0, 0))`. -/
def seed_line : Line := normalize_total { x := 0, y := 0, width := 0 }

lemma check_origin : check_mine_at_position 0 0 = false := by decide

lemma seed_is_max_run : is_max_run seed_line := by
  unfold seed_line
  apply normalize_safe_max_run
  · norm_num
  · intro t ht1 ht2
    simp only at ht1 ht2
    have h0 : t = 0 := by omega
    subst h0
    exact check_origin

/-- Embedding of `_find_safe_clumps`: normalize the two parallel lines
directly above and below (`y_offset ∈ {-1, 1}`), then scan each for
safe clumps. -/
def find_safe_clumps (line : Line) : Option (List Line) :=
  match normalize_line { x := line.x, y := line.y - 1, width := line.width },
      normalize_line { x := line.x, y := line.y + 1, width := line.width } with
  | some la, some lb =>
      some (find_safe_clumps_within_line la ++ find_safe_clumps_within_line lb)
  | _, _ => none

lemma find_safe_clumps_eq (l : Line) :
    find_safe_clumps l = some
      (find_safe_clumps_within_line
          (normalize_total { x := l.x, y := l.y - 1, width := l.width }) ++
        find_safe_clumps_within_line
          (normalize_total { x := l.x, y := l.y + 1, width := l.width })) := by
  unfold find_safe_clumps
  rw [normalize_line_eq_total, normalize_line_eq_total]

/-- The `frozenset(_find_safe_clumps(clump))` of `main`. -/
def neighbor_set (c : Line) : Finset Line :=
  ((find_safe_clumps c).getD []).toFinset

lemma mem_neighbor_set (c d : Line) :
    d ∈ neighbor_set c ↔
      d ∈ find_safe_clumps_within_line
          (normalize_total { x := c.x, y := c.y - 1, width := c.width }) ∨
        d ∈ find_safe_clumps_within_line
          (normalize_total { x := c.x, y := c.y + 1, width := c.width }) := by
  unfold neighbor_set
  rw [find_safe_clumps_eq]
  simp [List.mem_append]

/-- All discovered neighbours of a non-degenerate clump are maximal
runs. -/
lemma neighbor_set_max_run (c : Line) (hw : 0 ≤ c.width) (d : Line)
    (hd : d ∈ neighbor_set c) : is_max_run d := by
  rw [mem_neighbor_set] at hd
  rcases hd with h | h
  · exact scanner_of_normalized_max_run { x := c.x, y := c.y - 1, width := c.width }
      (by simpa using hw) d h
  · exact scanner_of_normalized_max_run { x := c.x, y := c.y + 1, width := c.width }
      (by simpa using hw) d h

/-- Rows of discovered neighbours are the rows directly above/below. -/
lemma neighbor_set_row (c d : Line) (hd : d ∈ neighbor_set c) :
    d.y = c.y - 1 ∨ d.y = c.y + 1 := by
  rw [mem_neighbor_set] at hd
  rcases hd with h | h
  · left
    have := (scanner_mem_props _ _ h).1
    rw [this, normalize_y]
  · right
    have := (scanner_mem_props _ _ h).1
    rw [this, normalize_y]

/-- Driver state: `(unprocessed_clumps, processed_clumps)`. -/
abbrev DriverState := Finset Line × Finset Line

/-- One iteration of the `while` loop of `main`: pick any clump of the
unprocessed set, add its undiscovered neighbours, move it to the
processed set. -/
inductive DriverStep : DriverState → DriverState → Prop
  | pop (u p : Finset Line) (c : Line) (hc : c ∈ u) :
      DriverStep (u, p) ((u ∪ (neighbor_set c \ p)) \ {c}, insert c p)

/-- Zero or more driver iterations. -/
def DriverReaches : DriverState → DriverState → Prop :=
  Relation.ReflTransGen DriverStep

/-- Initial driver state: frontier seeded with the normalized origin
clump, discovered set empty. -/
def init_state : DriverState := ({seed_line}, ∅)

lemma reaches_preserves (Inv : DriverState → Prop)
    (hstep : ∀ s t, Inv s → DriverStep s t → Inv t) :
    ∀ s t, Inv s → DriverReaches s t → Inv t := by
  intro s t hs h
  induction h with
  | refl => exact hs
  | tail hab hbc ih => exact hstep _ _ ih hbc

/-- Invariant: every clump in either set is a maximal run. -/
def AllMaxRun (s : DriverState) : Prop := ∀ c ∈ s.1 ∪ s.2, is_max_run c

lemma step_preserves_max_run :
    ∀ s t, AllMaxRun s → DriverStep s t → AllMaxRun t := by
  intro s t hinv hstep
  cases hstep with
  | pop u p c hc =>
      intro d hd
      have hcmax : is_max_run c := hinv c (by simp [hc])
      simp only [Finset.mem_union, Finset.mem_sdiff, Finset.mem_insert,
        Finset.mem_singleton] at hd
      rcases hd with ⟨h | h, _⟩ | h | h
      · exact hinv d (by simp [h])
      · exact neighbor_set_max_run c (le_of_lt hcmax.1) d h.1
      · subst h; exact hcmax
      · exact hinv d (by simp [h])

lemma reaches_all_max_run (s : DriverState)
    (h : DriverReaches init_state s) : AllMaxRun s := by
  apply reaches_preserves AllMaxRun step_preserves_max_run init_state s _ h
  intro c hc
  simp only [init_state, Finset.union_empty, Finset.mem_singleton] at hc
  · subst hc
    exact seed_is_max_run

/-- Invariant: frontier and discovered set are disjoint. -/
def FDdisjoint (s : DriverState) : Prop := ∀ c ∈ s.1, c ∉ s.2

lemma step_preserves_disjoint :
    ∀ s t, FDdisjoint s → DriverStep s t → FDdisjoint t := by
  intro s t hinv hstep
  cases hstep with
  | pop u p c hc =>
      intro d hd
      simp only [Finset.mem_sdiff, Finset.mem_union, Finset.mem_singleton] at hd
      simp only [Finset.mem_insert]
      push_neg
      obtain ⟨hd1, hd2⟩ := hd
      refine ⟨hd2, ?_⟩
      rcases hd1 with h | h
      · exact hinv d h
      · exact h.2

lemma reaches_disjoint (s : DriverState)
    (h : DriverReaches init_state s) : FDdisjoint s := by
  apply reaches_preserves FDdisjoint step_preserves_disjoint init_state s _ h
  intro c hc
  simp [init_state]

/-- Clumps reachable from an initial frontier by repeated neighbour
discovery. -/
inductive ClumpReach (u0 : Finset Line) : Line → Prop
  | base (c : Line) : c ∈ u0 → ClumpReach u0 c
  | step (d c : Line) : ClumpReach u0 d → c ∈ neighbor_set d → ClumpReach u0 c

/-- Invariant tying a driver run started at `(u0, ∅)` to the
reachability closure of `u0`. -/
def ReachInv (u0 : Finset Line) (s : DriverState) : Prop :=
  (∀ c ∈ s.1 ∪ s.2, ClumpReach u0 c) ∧
    (∀ d ∈ s.2, ∀ e ∈ neighbor_set d, e ∈ s.1 ∪ s.2) ∧
    (∀ c ∈ u0, c ∈ s.1 ∪ s.2)

lemma step_preserves_reach (u0 : Finset Line) :
    ∀ s t, ReachInv u0 s → DriverStep s t → ReachInv u0 t := by
  intro s t hinv hstep
  cases hstep with
  | pop u p c hc =>
      obtain ⟨h1, h2, h3⟩ := hinv
      have hmem : ∀ d, d ∈ u ∪ p ∨ d ∈ neighbor_set c →
          d ∈ ((u ∪ (neighbor_set c \ p)) \ {c}) ∪ insert c p := by
        intro d hd
        simp only [Finset.mem_union, Finset.mem_sdiff, Finset.mem_insert,
          Finset.mem_singleton] at hd ⊢
        by_cases hdc : d = c
        · right; left; exact hdc
        · rcases hd with (h | h) | h
          · left; exact ⟨Or.inl h, hdc⟩
          · right; right; exact h
          · by_cases hdp : d ∈ p
            · right; right; exact hdp
            · left; exact ⟨Or.inr ⟨h, hdp⟩, hdc⟩
      refine ⟨?_, ?_, ?_⟩
      · intro d hd
        simp only [Finset.mem_union, Finset.mem_sdiff, Finset.mem_insert,
          Finset.mem_singleton] at hd
        have hcreach : ClumpReach u0 c := h1 c (by simp [hc])
        rcases hd with ⟨h | h, _⟩ | h | h
        · exact h1 d (by simp [h])
        · exact ClumpReach.step c d hcreach h.1
        · subst h; exact hcreach
        · exact h1 d (by simp [h])
      · intro d hd e he
        simp only [Finset.mem_insert] at hd
        rcases hd with hdc | hdp
        · subst hdc
          exact hmem e (Or.inr he)
        · exact hmem e (Or.inl (h2 d hdp e he))
      · intro d hd
        exact hmem d (Or.inl (h3 d hd))

/-- Any terminated run from `(u0, ∅)` discovers exactly the
reachability closure of `u0`. -/
lemma final_discovered_eq (u0 p : Finset Line)
    (h : DriverReaches (u0, ∅) (∅, p)) : ∀ c, c ∈ p ↔ ClumpReach u0 c := by
  have hinv : ReachInv u0 (∅, p) := by
    apply reaches_preserves (ReachInv u0) (step_preserves_reach u0) (u0, ∅) (∅, p) _ h
    refine ⟨?_, ?_, ?_⟩
    · intro c hc
      simp only [Finset.union_empty] at hc
      exact ClumpReach.base c hc
    · intro d hd
      simp at hd
    · intro c hc
      simp [hc]
  obtain ⟨h1, h2, h3⟩ := hinv
  intro c
  constructor
  · intro hc
    exact h1 c (by simp [hc])
  · intro hc
    induction hc with
    | base c' hc' =>
        have := h3 c' hc'
        simpa using this
    | step d c' hd hc' ih =>
        have := h2 d (by simpa using ih) c' hc'
        simpa using this

lemma check_mine_false_iff (x y : Int) :
    check_mine_at_position x y = false ↔
      digitsum x.natAbs + digitsum y.natAbs ≤ THRESHOLD := by
  rw [Bool.eq_false_iff, Ne, check_mine_iff]
  omega

/-- The cells `[x, x + width) × {y}` covered by a line. -/
def line_cells (c : Line) : Finset (Int × Int) :=
  (Finset.range c.width.toNat).image (fun i : Nat => (c.x + (i : Int), c.y))

lemma mem_line_cells (c : Line) (q : Int × Int) :
    q ∈ line_cells c ↔
      q.2 = c.y ∧ c.x ≤ q.1 ∧ q.1 < c.x + (c.width.toNat : Int) := by
  unfold line_cells
  rw [Finset.mem_image]
  constructor
  · rintro ⟨i, hi, rfl⟩
    rw [Finset.mem_range] at hi
    refine ⟨rfl, by omega, ?_⟩
    have : (i : Int) < (c.width.toNat : Int) := by exact_mod_cast hi
    omega
  · rintro ⟨h1, h2, h3⟩
    refine ⟨(q.1 - c.x).toNat, ?_, ?_⟩
    · rw [Finset.mem_range]; omega
    · have : c.x + (((q.1 - c.x).toNat : Int)) = q.1 := by omega
      rw [this]
      exact Prod.ext rfl h1.symm

lemma line_cells_card (c : Line) : (line_cells c).card = c.width.toNat := by
  unfold line_cells
  rw [Finset.card_image_of_injective, Finset.card_range]
  intro i j h
  simp only [Prod.mk.injEq] at h
  omega

/-- Distinct maximal runs cover disjoint cell sets. -/
lemma max_run_cells_disjoint (c d : Line) (hc : is_max_run c) (hd : is_max_run d)
    (hne : c ≠ d) : Disjoint (line_cells c) (line_cells d) := by
  rw [Finset.disjoint_left]
  intro q hqc hqd
  rw [mem_line_cells] at hqc hqd
  apply hne
  have hcw : ((c.width.toNat : Int)) = c.width := by have := hc.1; omega
  have hdw : ((d.width.toNat : Int)) = d.width := by have := hd.1; omega
  rw [hcw] at hqc
  rw [hdw] at hqd
  exact max_run_eq c d hc hd (by rw [← hqc.1, hqd.1]) q.1
    hqc.2.1 hqc.2.2 hqd.2.1 hqd.2.2

/-- Total width of a family of maximal runs equals the number of cells
they cover. -/
lemma sum_width_eq_card (p : Finset Line) (hmax : ∀ c ∈ p, is_max_run c) :
    (∑ c ∈ p, c.width) = (((p.biUnion line_cells).card : Int)) := by
  rw [Finset.card_biUnion]
  · push_cast
    apply Finset.sum_congr rfl
    intro c hc
    rw [line_cells_card]
    have := (hmax c hc).1
    omega
  · intro c hc d hd hne
    exact max_run_cells_disjoint c d (hmax c hc) (hmax d hd) hne

/-- If the right span edge is safe the normalized line extends strictly
past it. -/
lemma normalize_end_gt (l : Line)
    (h : check_mine_at_position (l.x + l.width) l.y = false) :
    l.x + l.width < (normalize_total l).x + (normalize_total l).width := by
  have hd3 := (normalize_total_def l).2.2
  rw [if_neg (by simp [h])] at hd3
  have : (0:Int) ≤ (Nat.find (exists_mine_right (l.x + l.width) l.y) : Int) := by
    positivity
  omega

/-- Normalizing any non-empty all-safe span yields a maximal run. -/
lemma normalize_run_max_run (s : Line) (hw : 0 < s.width)
    (hsafe : ∀ t : Int, s.x ≤ t → t < s.x + s.width →
      check_mine_at_position t s.y = false) :
    is_max_run (normalize_total s) := by
  by_cases hend : check_mine_at_position (s.x + s.width) s.y = true
  · have hs1 : check_mine_at_position s.x s.y = false := hsafe s.x le_rfl (by omega)
    obtain ⟨hd1, hd2, hd3⟩ := normalize_total_def s
    rw [if_pos hend] at hd3
    have hxle : (normalize_total s).x ≤ s.x := normalize_x_le s
    have hmiddle : ∀ t : Int, (normalize_total s).x ≤ t →
        t < (normalize_total s).x + (normalize_total s).width →
        check_mine_at_position t s.y = false := by
      intro t ht1 ht2
      by_cases hA : t ≤ s.x
      · exact normalize_left_safe s hs1 t ht1 hA
      · exact hsafe t (by omega) (by omega)
    refine ⟨by omega, ?_, ?_, ?_⟩
    · intro t ht1 ht2
      rw [hd2]
      exact hmiddle t ht1 ht2
    · rw [hd2]
      rcases normalize_left_mine s with hm | ⟨hsx, hm⟩
      · exfalso
        have := hmiddle (normalize_total s).x le_rfl (by omega)
        rw [hm] at this
        exact absurd this (by simp)
      · exact hm
    · rw [hd2]
      exact normalize_right_mine s
  · apply normalize_safe_max_run s (by omega)
    intro t ht1 ht2
    rcases eq_or_lt_of_le ht2 with heq | hlt
    · rw [heq]
      exact Bool.eq_false_iff.mpr hend
    · exact hsafe t ht1 hlt

/-- Int-level constructor for scanner membership. -/
lemma scanner_mem_of_props (l : Line) (sx send : Int)
    (h1 : l.x ≤ sx) (h2 : send ≤ l.x + (l.width.toNat : Int)) (h3 : sx < send)
    (hsafe : ∀ t : Int, sx ≤ t → t < send → check_mine_at_position t l.y = false)
    (hleft : sx = l.x ∨ check_mine_at_position (sx - 1) l.y = true)
    (hright : send = l.x + (l.width.toNat : Int) ∨
      check_mine_at_position send l.y = true) :
    ({ x := sx, y := l.y, width := send - sx } : Line) ∈
      find_safe_clumps_within_line l := by
  rw [mem_scanner_iff]
  refine ⟨(sx - l.x).toNat, (send - l.x).toNat, by omega, by omega, ?_, ?_, ?_, ?_⟩
  · unfold slice_line
    apply Line.ext
    · simp only
      omega
    · rfl
    · simp only
      omega
  · intro i hi1 hi2
    unfold safe_at
    rw [Bool.not_eq_true']
    apply hsafe
    · omega
    · omega
  · rcases hleft with h | h
    · left; omega
    · by_cases hz : sx = l.x
      · left; omega
      · right
        unfold safe_at
        rw [Bool.not_eq_false']
        have harg : l.x + ((((sx - l.x).toNat - 1 : Nat)) : Int) = sx - 1 := by omega
        rw [harg]
        exact h
  · rcases hright with h | h
    · left; omega
    · right
      unfold safe_at
      rw [Bool.not_eq_false']
      have harg : l.x + ((((send - l.x).toNat : Nat)) : Int) = send := by omega
      rw [harg]
      exact h

/-- Every clump found by the code on a parallel row overlaps the column
window `[cx, cx + cw]` of the popped clump. -/
lemma code_candidate_window (cx cw yr : Int) (hw : 0 < cw) (d : Line)
    (hd : d ∈ find_safe_clumps_within_line
      (normalize_total { x := cx, y := yr, width := cw })) :
    d.x ≤ cx + cw ∧ cx < d.x + d.width := by
  set l0 : Line := { x := cx, y := yr, width := cw } with hl0
  have hpx : l0.x = cx := rfl
  have hpw : l0.width = cw := rfl
  have hpy : l0.y = yr := rfl
  obtain ⟨hy, hwd, hxl, hxr, hsafe, hleft, hright⟩ :=
    scanner_mem_props (normalize_total l0) d hd
  have hx_le : (normalize_total l0).x ≤ cx := normalize_x_le l0
  have hend_ge : cx + cw ≤ (normalize_total l0).x + (normalize_total l0).width :=
    normalize_end_ge l0
  have hnlw : 0 ≤ (normalize_total l0).width := by omega
  have hspan : (((normalize_total l0).width.toNat : Int)) = (normalize_total l0).width := by
    omega
  rw [hspan] at hxr hright
  have hnly : (normalize_total l0).y = yr := normalize_y l0
  rw [hnly] at hsafe hleft hright
  constructor
  · by_contra hcon
    push_neg at hcon
    by_cases hm : check_mine_at_position (cx + cw) yr = true
    · have hd3 : (normalize_total l0).x + (normalize_total l0).width = cx + cw := by
        have h3 := (normalize_total_def l0).2.2
        rw [if_pos hm] at h3
        exact h3
      omega
    · have hmf : check_mine_at_position (cx + cw) yr = false := Bool.eq_false_iff.mpr hm
      rcases hleft with h | h
      · omega
      · have hsafe1 : check_mine_at_position (d.x - 1) yr = false := by
          apply normalize_right_safe l0 hmf (d.x - 1) (by omega) (by omega)
        rw [h] at hsafe1
        exact absurd hsafe1 (by simp)
  · by_contra hcon
    push_neg at hcon
    by_cases hm : check_mine_at_position cx yr = true
    · have hd1 : (normalize_total l0).x = cx := by
        have h1 := (normalize_total_def l0).1
        rw [if_pos hm] at h1
        exact h1
      omega
    · have hmf : check_mine_at_position cx yr = false := Bool.eq_false_iff.mpr hm
      rcases hright with h | h
      · omega
      · have hsafe1 : check_mine_at_position (d.x + d.width) yr = false := by
          apply normalize_left_safe l0 hmf (d.x + d.width) (by omega) (by omega)
        rw [h] at hsafe1
        exact absurd hsafe1 (by simp)

/-- Each code-found clump also arises from the spec's procedure of
scanning the one-cell-margin span and normalizing. -/
lemma code_candidate_in_spec (cx cw yr : Int) (hw : 0 < cw) (d : Line)
    (hd : d ∈ find_safe_clumps_within_line
      (normalize_total { x := cx, y := yr, width := cw })) :
    d ∈ (find_safe_clumps_within_line
        { x := cx - 1, y := yr, width := cw + 2 }).map normalize_total := by
  have hwin := code_candidate_window cx cw yr hw d hd
  have hdmax : is_max_run d :=
    scanner_of_normalized_max_run { x := cx, y := yr, width := cw }
      (le_of_lt hw) d hd
  have hdy : d.y = yr := by
    have h := (scanner_mem_props _ _ hd).1
    rw [h]
    exact normalize_y { x := cx, y := yr, width := cw }
  have hdw : 0 < d.width := hdmax.1
  have hdsafe : ∀ t : Int, d.x ≤ t → t < d.x + d.width →
      check_mine_at_position t yr = false := by
    intro t h1 h2
    have := hdmax.2.1 t h1 h2
    rwa [hdy] at this
  have hdl : check_mine_at_position (d.x - 1) yr = true := by
    have := hdmax.2.2.1
    rwa [hdy] at this
  have hdr : check_mine_at_position (d.x + d.width) yr = true := by
    have := hdmax.2.2.2
    rwa [hdy] at this
  set M : Line := { x := cx - 1, y := yr, width := cw + 2 } with hM
  have hMx : M.x = cx - 1 := rfl
  have hMw : M.width = cw + 2 := rfl
  have hMy : M.y = yr := rfl
  have hMtoNat : ((M.width.toNat : Int)) = cw + 2 := by
    rw [hMw]
    omega
  set sx := max d.x (cx - 1) with hsx
  set send := min (d.x + d.width) (cx + cw + 1) with hsend
  have hsx1 : d.x ≤ sx := le_max_left _ _
  have hsx2 : cx - 1 ≤ sx := le_max_right _ _
  have hsx3 : sx = d.x ∨ sx = cx - 1 := max_choice _ _
  have hse1 : send ≤ d.x + d.width := min_le_left _ _
  have hse2 : send ≤ cx + cw + 1 := min_le_right _ _
  have hse3 : send = d.x + d.width ∨ send = cx + cw + 1 := min_choice _ _
  have hlt : sx < send := by
    rcases hsx3 with h | h <;> rcases hse3 with h' | h' <;> omega
  have hmem : ({ x := sx, y := M.y, width := send - sx } : Line) ∈
      find_safe_clumps_within_line M := by
    apply scanner_mem_of_props M sx send (by omega) (by omega) hlt
    · intro t h1 h2
      rw [hMy]
      exact hdsafe t (by omega) (by omega)
    · rcases hsx3 with h | h
      · right
        rw [hMy, h]
        exact hdl
      · left
        omega
    · rcases hse3 with h | h
      · right
        rw [hMy, h]
        exact hdr
      · left
        omega
  have hnorm : normalize_total { x := sx, y := M.y, width := send - sx } = d := by
    refine normalize_subrun d _ hdmax ?_ ?_ ?_ ?_
    · show M.y = d.y
      rw [hMy, hdy]
    · show d.x ≤ sx
      exact hsx1
    · show sx + (send - sx) ≤ d.x + d.width
      omega
    · show (0:Int) < send - sx
      omega
  rw [List.mem_map]
  exact ⟨_, hmem, hnorm⟩

/-- Each spec-procedure clump is also found by the code; the one case
the code's unnormalized span would miss (a run wholly left of the
popped clump) cannot occur, by monotonicity of the digit-sum oracle. -/
lemma spec_candidate_in_code (cx cw y0 yr : Int) (hw : 0 < cw)
    (hL : check_mine_at_position (cx - 1) y0 = true)
    (hC : check_mine_at_position cx y0 = false) (d : Line)
    (hd : d ∈ (find_safe_clumps_within_line
      { x := cx - 1, y := yr, width := cw + 2 }).map normalize_total) :
    d ∈ find_safe_clumps_within_line
      (normalize_total { x := cx, y := yr, width := cw }) := by
  rw [List.mem_map] at hd
  obtain ⟨s, hs, hds⟩ := hd
  set M : Line := { x := cx - 1, y := yr, width := cw + 2 } with hM
  have hMx : M.x = cx - 1 := rfl
  have hMw : M.width = cw + 2 := rfl
  have hMy : M.y = yr := rfl
  have hMtoNat : ((M.width.toNat : Int)) = cw + 2 := by
    rw [hMw]
    omega
  obtain ⟨hsy, hsw, hsxl, hsxr, hssafe, hsleft, hsright⟩ := scanner_mem_props M s hs
  rw [hMtoNat] at hsxr hsright
  rw [hMy] at hssafe hsleft hsright
  rw [hMx] at hsxl hsleft
  rw [hMy] at hsy
  have hdmax : is_max_run d := by
    rw [← hds]
    apply normalize_run_max_run s hsw
    intro t h1 h2
    rw [hsy]
    exact hssafe t h1 h2
  have hdy : d.y = yr := by
    rw [← hds, normalize_y, hsy]
  have hdx_le : d.x ≤ s.x := by
    rw [← hds]
    exact normalize_x_le s
  have hdend_ge : s.x + s.width ≤ d.x + d.width := by
    rw [← hds]
    exact normalize_end_ge s
  have hdw : 0 < d.width := hdmax.1
  have hdsafe : ∀ t : Int, d.x ≤ t → t < d.x + d.width →
      check_mine_at_position t yr = false := by
    intro t h1 h2
    have := hdmax.2.1 t h1 h2
    rwa [hdy] at this
  have hdr : check_mine_at_position (d.x + d.width) yr = true := by
    have := hdmax.2.2.2
    rwa [hdy] at this
  have hwin2 : cx < d.x + d.width := by
    by_contra hcon
    push_neg at hcon
    have hsx_eq : s.x = cx - 1 := by omega
    have hsafe_cx1 : check_mine_at_position (cx - 1) yr = false := by
      have := hssafe s.x le_rfl (by omega)
      rwa [hsx_eq] at this
    have hend_eq : d.x + d.width = cx := by omega
    have hmine_cx : check_mine_at_position cx yr = true := by
      rw [← hend_eq]
      exact hdr
    rw [check_mine_iff] at hL hmine_cx
    rw [check_mine_false_iff] at hC hsafe_cx1
    omega
  have hwin1 : d.x ≤ cx + cw := by omega
  set t := max d.x cx with ht
  have ht1 : d.x ≤ t := le_max_left _ _
  have ht2 : cx ≤ t := le_max_right _ _
  have ht3 : t < d.x + d.width := by
    rcases max_choice d.x cx with h | h <;> omega
  have ht4 : t ≤ cx + cw := by
    rcases max_choice d.x cx with h | h <;> omega
  have htsafe : check_mine_at_position t yr = false := hdsafe t ht1 ht3
  set l0 : Line := { x := cx, y := yr, width := cw } with hl0
  have hpx : l0.x = cx := rfl
  have hpw : l0.width = cw := rfl
  have hpy : l0.y = yr := rfl
  have hnl_x : (normalize_total l0).x ≤ cx := normalize_x_le l0
  have hnl_end : cx + cw ≤ (normalize_total l0).x + (normalize_total l0).width :=
    normalize_end_ge l0
  have hnlw : 0 ≤ (normalize_total l0).width := by omega
  have htlt : t < (normalize_total l0).x + (normalize_total l0).width := by
    rcases eq_or_lt_of_le ht4 with heq | hlt
    · have hsafe_end : check_mine_at_position (cx + cw) yr = false := by
        rw [← heq]
        exact htsafe
      have := normalize_end_gt l0 hsafe_end
      omega
    · omega
  have hspan : (((normalize_total l0).width.toNat : Int)) =
      (normalize_total l0).width := by omega
  obtain ⟨e, he, het1, het2⟩ :=
    scanner_complete (normalize_total l0) t (by omega) (by rw [hspan]; omega)
      (by rw [normalize_y]; exact htsafe)
  have hemax : is_max_run e := scanner_of_normalized_max_run l0 (le_of_lt hw) e he
  have hey : e.y = yr := by
    have h := (scanner_mem_props _ _ he).1
    rw [h]
    exact normalize_y l0
  have hde : d = e :=
    max_run_eq d e hdmax hemax (by rw [hdy, hey]) t ht1 ht3 het1 het2
  rw [hde]
  exact he

/-- The spec's Step procedure for neighbour discovery, as the spec
words it: scan the horizontal span `[c.x - 1, c.x + c.width + 1)` (one
cell of margin each side) on the rows directly below and above, then
normalize each clump the Scanner returns. -/
def spec_neighbor_candidates (c : Line) : List Line :=
  (find_safe_clumps_within_line { x := c.x - 1, y := c.y - 1, width := c.width + 2 } ++
    find_safe_clumps_within_line { x := c.x - 1, y := c.y + 1, width := c.width + 2 }).map
    normalize_total

/-- For every maximal-run clump the code's neighbour candidates
coincide with the spec-procedure's candidates. -/
lemma neighbor_set_eq_spec (c : Line) (hc : is_max_run c) :
    neighbor_set c = (spec_neighbor_candidates c).toFinset := by
  have hw := hc.1
  have hL : check_mine_at_position (c.x - 1) c.y = true := hc.2.2.1
  have hC : check_mine_at_position c.x c.y = false := hc.2.1 c.x le_rfl (by omega)
  ext d
  rw [mem_neighbor_set, List.mem_toFinset]
  unfold spec_neighbor_candidates
  rw [List.map_append, List.mem_append]
  constructor
  · rintro (h | h)
    · exact Or.inl (code_candidate_in_spec c.x c.width (c.y - 1) hw d h)
    · exact Or.inr (code_candidate_in_spec c.x c.width (c.y + 1) hw d h)
  · rintro (h | h)
    · exact Or.inl (spec_candidate_in_code c.x c.width c.y (c.y - 1) hw hL hC d h)
    · exact Or.inr (spec_candidate_in_code c.x c.width c.y (c.y + 1) hw hL hC d h)

/-- Embedding of the final `print(sum(c.width for c in processed_clumps))`:
Python's `print` writes the decimal representation followed by one
newline. -/
def report_output (p : Finset Line) : String :=
  toString (∑ c ∈ p, c.width) ++ "\n"

lemma digitChar_of_ge (m : Nat) (h : 16 ≤ m) : Nat.digitChar m = '*' := by
  unfold Nat.digitChar
  rw [if_neg (by omega : ¬ m = 0), if_neg (by omega : ¬ m = 1),
    if_neg (by omega : ¬ m = 2), if_neg (by omega : ¬ m = 3),
    if_neg (by omega : ¬ m = 4), if_neg (by omega : ¬ m = 5),
    if_neg (by omega : ¬ m = 6), if_neg (by omega : ¬ m = 7),
    if_neg (by omega : ¬ m = 8), if_neg (by omega : ¬ m = 9),
    if_neg (by omega : ¬ m = 10), if_neg (by omega : ¬ m = 11),
    if_neg (by omega : ¬ m = 12), if_neg (by omega : ¬ m = 13),
    if_neg (by omega : ¬ m = 14), if_neg (by omega : ¬ m = 15)]

lemma digitChar_ne_newline (m : Nat) : Nat.digitChar m ≠ '\n' := by
  by_cases h : m < 16
  · interval_cases m <;> decide
  · rw [digitChar_of_ge m (by omega)]
    decide

lemma toDigitsCore_ne_newline (b : Nat) : ∀ fuel n : Nat, ∀ ds : List Char,
    (∀ c ∈ ds, c ≠ '\n') → ∀ c ∈ Nat.toDigitsCore b fuel n ds, c ≠ '\n' := by
  intro fuel
  induction fuel with
  | zero =>
      intro n ds hds c hc
      unfold Nat.toDigitsCore at hc
      exact hds c hc
  | succ fuel ih =>
      intro n ds hds c hc
      unfold Nat.toDigitsCore at hc
      by_cases h : n / b = 0
      · rw [if_pos h] at hc
        rcases List.mem_cons.mp hc with h' | h'
        · rw [h']
          exact digitChar_ne_newline (n % b)
        · exact hds c h'
      · rw [if_neg h] at hc
        apply ih (n / b) (Nat.digitChar (n % b) :: ds) _ c hc
        intro c' hc'
        rcases List.mem_cons.mp hc' with h' | h'
        · rw [h']
          exact digitChar_ne_newline (n % b)
        · exact hds c' h'

lemma nat_repr_ne_newline (n : Nat) : ∀ c ∈ (Nat.repr n).toList, c ≠ '\n' := by
  intro c hc
  have : (Nat.repr n).toList = Nat.toDigits 10 n := rfl
  rw [this] at hc
  exact toDigitsCore_ne_newline 10 (n+1) n [] (by intro c' hc'; simp at hc') c hc

/-- The decimal rendering of an integer contains no newline. -/
lemma int_toString_ne_newline (n : Int) : ∀ c ∈ (toString n).toList, c ≠ '\n' := by
  cases n with
  | ofNat m =>
      intro c hc
      exact nat_repr_ne_newline m c hc
  | negSucc m =>
      intro c hc
      have : (toString (Int.negSucc m)).toList = '-' :: (Nat.repr (m+1)).toList := rfl
      rw [this] at hc
      rcases List.mem_cons.mp hc with h' | h'
      · rw [h']
        decide
      · exact nat_repr_ne_newline (m+1) c h'

/-- Scanning a fixed point of normalization yields only fixed points of
normalization. -/
lemma scanner_of_fixed_point (l : Line) (hfix : normalize_line l = some l) :
    ∀ c ∈ find_safe_clumps_within_line l, normalize_line c = some c := by
  intro c hc
  have htot : normalize_total l = l := by
    have h := normalize_line_eq_total l
    rw [hfix] at h
    injection h with h
    exact h.symm
  have hR : check_mine_at_position (l.x + l.width) l.y = true := by
    have h := normalize_right_mine l
    rwa [htot] at h
  have hLor : check_mine_at_position l.x l.y = true ∨
      check_mine_at_position (l.x - 1) l.y = true := by
    rcases normalize_left_mine l with h | ⟨h1, h2⟩
    · left; rwa [htot] at h
    · right; rwa [htot] at h2
  obtain ⟨hy, hw, hxl, hxr, hsafe, hleft, hright⟩ := scanner_mem_props l c hc
  have hlw : 0 < l.width := by
    have h1 : (0:Int) < (l.width.toNat : Int) := by omega
    omega
  have htn : ((l.width.toNat : Int)) = l.width := by omega
  rw [htn] at hxr hright
  have hfixc : normalize_total c = c := by
    apply normalize_fix
    · rw [hy]
      rcases hleft with h | h
      · rcases hLor with h' | h'
        · left; rw [h]; exact h'
        · right; rw [h]; exact h'
      · right; exact h
    · rw [hy]
      rcases hright with h | h
      · rw [h]; exact hR
      · exact h
  rw [normalize_line_eq_total, hfixc]

/-- Two scanner outputs starting at the same offset coincide. -/
lemma scanner_inj (l c d : Line) (hc : c ∈ find_safe_clumps_within_line l)
    (hd : d ∈ find_safe_clumps_within_line l) (hx : c.x = d.x) : c = d := by
  obtain ⟨hyc, hwc, hxlc, hxrc, hsafec, _, hrightc⟩ := scanner_mem_props l c hc
  obtain ⟨hyd, hwd, hxld, hxrd, hsafed, _, hrightd⟩ := scanner_mem_props l d hd
  apply Line.ext hx (hyc.trans hyd.symm)
  rcases lt_trichotomy (c.x + c.width) (d.x + d.width) with h | h | h
  · exfalso
    have hsafe := hsafed (c.x + c.width) (by omega) (by omega)
    rcases hrightc with h' | h'
    · omega
    · rw [h'] at hsafe
      exact absurd hsafe (by simp)
  · omega
  · exfalso
    have hsafe := hsafec (d.x + d.width) (by omega) (by omega)
    rcases hrightd with h' | h'
    · omega
    · rw [h'] at hsafe
      exact absurd hsafe (by simp)

/-- Between two scanner outputs in ascending order lies a mine. -/
lemma scanner_gap (l c d : Line) (hc : c ∈ find_safe_clumps_within_line l)
    (hd : d ∈ find_safe_clumps_within_line l) (hlt : c.x < d.x) :
    c.x + c.width ≤ d.x - 1 ∧ check_mine_at_position (d.x - 1) l.y = true := by
  obtain ⟨hyc, hwc, hxlc, hxrc, hsafec, hleftc, hrightc⟩ := scanner_mem_props l c hc
  obtain ⟨hyd, hwd, hxld, hxrd, hsafed, hleftd, hrightd⟩ := scanner_mem_props l d hd
  have hmine : check_mine_at_position (d.x - 1) l.y = true := by
    rcases hleftd with h | h
    · omega
    · exact h
  refine ⟨?_, hmine⟩
  by_contra hcon
  push_neg at hcon
  have hsafe := hsafec (d.x - 1) (by omega) (by omega)
  rw [hmine] at hsafe
  exact absurd hsafe (by simp)

/-- C1: in every driver Step, the neighbour candidates of the popped
clump are exactly those produced by scanning the horizontal span
`[c.x - 1, c.x + c.width + 1)` (one cell of margin on each side) on the
two rows `c.y - 1` and `c.y + 1` and normalizing each clump the Scanner
returns. -/
theorem claim_C1 (u p : Finset Line) (c : Line)
    (h : DriverReaches init_state (u, p)) (hc : c ∈ u) :
    neighbor_set c = (spec_neighbor_candidates c).toFinset := by
  apply neighbor_set_eq_spec
  exact reaches_all_max_run (u, p) h c (Finset.mem_union_left _ hc)

theorem claim_C1_witness :
    neighbor_set seed_line = (spec_neighbor_candidates seed_line).toFinset :=
  claim_C1 {seed_line} ∅ seed_line Relation.ReflTransGen.refl
    (Finset.mem_singleton_self _)

/-- C2: the Scanner's outputs are pairwise disjoint and separated by a
mine, contain no mines, and jointly cover exactly the safe cells of the
span. -/
theorem claim_C2 (l : Line) (hl : 0 ≤ l.width) :
    (∀ c ∈ find_safe_clumps_within_line l,
      c.y = l.y ∧ 0 < c.width ∧ l.x ≤ c.x ∧ c.x + c.width ≤ l.x + l.width ∧
        ∀ t : Int, c.x ≤ t → t < c.x + c.width →
          check_mine_at_position t l.y = false) ∧
    (∀ c ∈ find_safe_clumps_within_line l, ∀ d ∈ find_safe_clumps_within_line l,
      c ≠ d → Disjoint (line_cells c) (line_cells d) ∧
        (c.x < d.x → c.x + c.width ≤ d.x - 1 ∧
          check_mine_at_position (d.x - 1) l.y = true)) ∧
    (∀ t : Int, (l.x ≤ t ∧ t < l.x + l.width ∧
        check_mine_at_position t l.y = false) ↔
      ∃ c ∈ find_safe_clumps_within_line l, c.x ≤ t ∧ t < c.x + c.width) := by
  have htn : ((l.width.toNat : Int)) = l.width := by omega
  refine ⟨?_, ?_, ?_⟩
  · intro c hc
    obtain ⟨hy, hw, hxl, hxr, hsafe, _, _⟩ := scanner_mem_props l c hc
    rw [htn] at hxr
    exact ⟨hy, hw, hxl, hxr, hsafe⟩
  · intro c hc d hd hne
    constructor
    · rw [Finset.disjoint_left]
      intro q hqc hqd
      rw [mem_line_cells] at hqc hqd
      have hwc : ((c.width.toNat : Int)) = c.width := by
        have := (scanner_mem_props l c hc).2.1
        omega
      have hwd : ((d.width.toNat : Int)) = d.width := by
        have := (scanner_mem_props l d hd).2.1
        omega
      rw [hwc] at hqc
      rw [hwd] at hqd
      rcases lt_trichotomy c.x d.x with h | h | h
      · have := (scanner_gap l c d hc hd h).1
        omega
      · exact hne (scanner_inj l c d hc hd h)
      · have := (scanner_gap l d c hd hc h).1
        omega
    · intro hlt
      exact scanner_gap l c d hc hd hlt
  · intro t
    constructor
    · rintro ⟨h1, h2, h3⟩
      exact scanner_complete l t h1 (by omega) h3
    · rintro ⟨c, hc, h1, h2⟩
      obtain ⟨hy, hw, hxl, hxr, hsafe, _, _⟩ := scanner_mem_props l c hc
      rw [htn] at hxr
      exact ⟨by omega, by omega, hsafe t h1 h2⟩

set_option maxHeartbeats 1000000 in
theorem claim_C2_witness :
    Disjoint (line_cells { x := 18, y := 59, width := 1 })
        (line_cells { x := 20, y := 59, width := 8 }) ∧
      (18 : Int) + 1 ≤ 20 - 1 ∧ check_mine_at_position (20 - 1) 59 = true := by
  have h := (claim_C2 { x := 18, y := 59, width := 10 } (by norm_num)).2.1
    { x := 18, y := 59, width := 1 } (by decide)
    { x := 20, y := 59, width := 8 } (by decide)
    (by decide)
  exact ⟨h.1, h.2 (by norm_num)⟩

/-- C3: the final discovered set, and hence the reported total, does
not depend on the order in which clumps are popped from the frontier. -/
theorem claim_C3 (u0 u1 p1 u2 p2 : Finset Line)
    (h1 : DriverReaches (u0, ∅) (u1, p1)) (h2 : DriverReaches (u0, ∅) (u2, p2))
    (he1 : u1 = ∅) (he2 : u2 = ∅) : p1 = p2 := by
  subst he1
  subst he2
  ext c
  rw [final_discovered_eq u0 p1 h1 c, final_discovered_eq u0 p2 h2 c]

theorem claim_C3_witness : (∅ : Finset Line) = ∅ :=
  claim_C3 ∅ ∅ ∅ ∅ ∅ Relation.ReflTransGen.refl Relation.ReflTransGen.refl rfl rfl

/-- C4: the mine oracle holds exactly when the decimal digit sums of
`|x|` and `|y|` exceed 23; in particular `(23, 34)` is safe and
`(345, 789)` is a mine. -/
theorem claim_C4 :
    (∀ x y : Int, check_mine_at_position x y = true ↔
      23 < digitsum x.natAbs + digitsum y.natAbs) ∧
    check_mine_at_position 23 34 = false ∧
    check_mine_at_position 345 789 = true :=
  ⟨fun x y => check_mine_iff x y, by decide, by decide⟩

/-- C5: normalization is idempotent on safe non-degenerate clumps. -/
theorem claim_C5 (c : Line) (hw : 0 < c.width)
    (hsafe : ∀ t : Int, c.x ≤ t → t < c.x + c.width →
      check_mine_at_position t c.y = false) :
    normalize_total (normalize_total c) = normalize_total c :=
  normalize_output_fix c

theorem claim_C5_witness :
    normalize_total (normalize_total { x := 0, y := 0, width := 1 }) =
      normalize_total { x := 0, y := 0, width := 1 } := by
  apply claim_C5 { x := 0, y := 0, width := 1 } (by norm_num)
  intro t h1 h2
  simp only at h1 h2
  have h0 : t = 0 := by omega
  subst h0
  exact check_origin

/-- C6 as written is false: the Normalizer invoked on the span
`[27, 29)` of row `59`, which contains the mine `(28, 59)`, returns
normally (no assertion failure) with the normalized clump `[20, 29)`. -/
theorem claim_C6_counterexample :
    check_mine_at_position 28 59 = true ∧
    normalize_line { x := 27, y := 59, width := 2 } =
      some { x := 20, y := 59, width := 9 } := by
  constructor
  · decide
  · have hfind : Nat.find (exists_mine_left 27 59) = 7 := by
      rw [Nat.find_eq_iff]
      refine ⟨by decide, ?_⟩
      decide
    obtain ⟨h1, h2, h3⟩ := normalize_total_def ({ x := 27, y := 59, width := 2 } : Line)
    simp only at h1 h2 h3
    rw [if_neg (by decide)] at h1
    rw [if_pos (by decide)] at h3
    rw [hfind] at h1
    norm_num at h1 h3
    rw [normalize_line_eq_total]
    have hnl : normalize_total { x := 27, y := 59, width := 2 } =
        ({ x := 20, y := 59, width := 9 } : Line) := by
      apply Line.ext h1 h2
      show (normalize_total { x := 27, y := 59, width := 2 }).width = 9
      omega
    rw [hnl]

/-- C6 amended: the Normalizer never raises an assertion failure, even
when the span contains a mine; the `assert` in the boundary walk only
guards positions the caller has already checked to be safe. -/
theorem claim_C6 (l : Line) : (normalize_line l).isSome = true :=
  normalize_line_isSome l

/-- C7: frontier and discovered set stay disjoint; each iteration moves
exactly the popped clump into the discovered set, and the frontier
gains only clumps that are not already discovered. -/
theorem claim_C7 :
    (∀ s : DriverState, DriverReaches init_state s → Disjoint s.1 s.2) ∧
    (∀ s t : DriverState, DriverReaches init_state s → DriverStep s t →
      ∃ c ∈ s.1, t.2 = insert c s.2 ∧ c ∉ t.1 ∧ s.2 ⊆ t.2 ∧
        (∀ d ∈ t.1, d ∉ s.2) ∧ (∀ d ∈ t.1, d ∈ s.1 ∨ d ∈ neighbor_set c)) := by
  constructor
  · intro s hs
    rw [Finset.disjoint_left]
    intro a ha
    exact reaches_disjoint s hs a ha
  · intro s t hs hstep
    cases hstep with
    | pop u p c hc =>
        refine ⟨c, hc, rfl, ?_, ?_, ?_, ?_⟩
        · simp
        · exact Finset.subset_insert c p
        · intro d hd
          simp only [Finset.mem_sdiff, Finset.mem_union, Finset.mem_singleton] at hd
          rcases hd.1 with h | h
          · exact reaches_disjoint (u, p) hs d h
          · exact h.2
        · intro d hd
          simp only [Finset.mem_sdiff, Finset.mem_union, Finset.mem_singleton] at hd
          rcases hd.1 with h | h
          · exact Or.inl h
          · exact Or.inr h.1

theorem claim_C7_witness : Disjoint init_state.1 init_state.2 :=
  claim_C7.1 init_state Relation.ReflTransGen.refl

/-- C8: on termination (empty frontier) the program writes exactly one
integer — the sum of the widths of the discovered clumps — followed by
a single newline, and nothing else. -/
theorem claim_C8 (s0 : DriverState) (u p : Finset Line)
    (h : DriverReaches s0 (u, p)) (hu : u = ∅) :
    report_output p = toString (∑ c ∈ p, c.width) ++ "\n" ∧
      (∀ ch ∈ (toString (∑ c ∈ p, c.width)).toList, ch ≠ '\n') ∧
      (report_output p).toList.count '\n' = 1 := by
  refine ⟨rfl, int_toString_ne_newline _, ?_⟩
  unfold report_output
  rw [show (toString (∑ c ∈ p, c.width) ++ "\n").toList =
    (toString (∑ c ∈ p, c.width)).toList ++ ("\n").toList from rfl]
  rw [List.count_append]
  have h0 : (toString (∑ c ∈ p, c.width)).toList.count '\n' = 0 := by
    rw [List.count_eq_zero]
    intro hmem
    exact int_toString_ne_newline _ _ hmem rfl
  rw [h0]
  decide

theorem claim_C8_witness :
    report_output ∅ = toString (∑ c ∈ (∅ : Finset Line), c.width) ++ "\n" ∧
      (∀ ch ∈ (toString (∑ c ∈ (∅ : Finset Line), c.width)).toList, ch ≠ '\n') ∧
      (report_output ∅).toList.count '\n' = 1 :=
  claim_C8 (∅, ∅) ∅ ∅ Relation.ReflTransGen.refl rfl

/-- C9: every clump the driver ever holds is a fixed point of
normalization, and scanning any fixed point of normalization yields
only fixed points, so no post-scan normalization pass is needed. -/
theorem claim_C9 :
    (∀ s : DriverState, DriverReaches init_state s →
      ∀ c ∈ s.1 ∪ s.2, normalize_line c = some c) ∧
    (∀ l : Line, normalize_line l = some l →
      ∀ c ∈ find_safe_clumps_within_line l, normalize_line c = some c) := by
  constructor
  · intro s hs c hc
    have hmax := reaches_all_max_run s hs c hc
    rw [normalize_line_eq_total, max_run_normalize_fix c hmax]
  · exact scanner_of_fixed_point

theorem claim_C9_witness :
    normalize_line { x := 20, y := 59, width := 8 } =
      some { x := 20, y := 59, width := 8 } := by
  have hfix : normalize_line { x := 19, y := 59, width := 9 } =
      some { x := 19, y := 59, width := 9 } := by
    have h := normalize_fix { x := 19, y := 59, width := 9 }
      (Or.inl (by decide)) (by decide)
    rw [normalize_line_eq_total, h]
  exact claim_C9.2 { x := 19, y := 59, width := 9 } hfix
    { x := 20, y := 59, width := 8 } (by decide)

/-- C10: at every iteration boundary distinct clumps held by the driver
cover disjoint cell sets, and the sum of widths equals the number of
distinct covered cells — in particular for the final discovered set. -/
theorem claim_C10 (u p : Finset Line) (h : DriverReaches init_state (u, p)) :
    (∀ c ∈ u ∪ p, ∀ d ∈ u ∪ p, c ≠ d → Disjoint (line_cells c) (line_cells d)) ∧
      (∑ c ∈ u ∪ p, c.width) = (((u ∪ p).biUnion line_cells).card : Int) ∧
      (u = ∅ → (∑ c ∈ p, c.width) = ((p.biUnion line_cells).card : Int)) := by
  have hmax : ∀ c ∈ u ∪ p, is_max_run c := fun c hc =>
    reaches_all_max_run (u, p) h c hc
  refine ⟨?_, ?_, ?_⟩
  · intro c hc d hd hne
    exact max_run_cells_disjoint c d (hmax c hc) (hmax d hd) hne
  · exact sum_width_eq_card (u ∪ p) hmax
  · intro hu
    apply sum_width_eq_card p
    intro c hc
    exact hmax c (Finset.mem_union_right u hc)

theorem claim_C10_witness :
    (∑ c ∈ ({seed_line} : Finset Line) ∪ ∅, c.width) =
      (((({seed_line} : Finset Line) ∪ ∅).biUnion line_cells).card : Int) :=
  (claim_C10 {seed_line} ∅ Relation.ReflTransGen.refl).2.1

theorem claim_C4_witness : check_mine_at_position 23 34 = false :=
  claim_C4.2.1

theorem claim_C6_witness :
    (normalize_line { x := 27, y := 59, width := 2 }).isSome = true :=
  claim_C6 { x := 27, y := 59, width := 2 }
